import Mathlib

/-
Verification of the uniscraper entity-resolution core against its
specification.  The Python sources (src/processors/merge_rankings.py and
src/scripts/merge_uni.py) are shallowly embedded over `List Char` strings:
every definition below mirrors one Python function or loop, with the file
and line range noted in its doc comment.  Python's `\s` class and
`str.strip` are modelled by their ASCII cases, which covers every string the
repository's pipeline produces.
-/

namespace Uniscraper

/-- Whitespace characters of Python's ASCII `\s` class and `str.strip`. -/
def isWs (c : Char) : Bool :=
  c = ' ' || c = '\t' || c = '\n' || c = '\x0d' || c = '\x0c' || c = '\x0b'

/-- Python `str.strip` acting from the right only. -/
def rstripWs (l : List Char) : List Char :=
  (l.reverse.dropWhile isWs).reverse

/-- Python `str.strip`: drop whitespace at both ends. -/
def stripWs (l : List Char) : List Char :=
  rstripWs (l.dropWhile isWs)

/-- merge_rankings.normalize_name line 105: `s.replace(",", " ")`. -/
def replComma (l : List Char) : List Char :=
  l.map fun c => if c = ',' then ' ' else c

/-- Body of the substitution `re.sub(r"\s+", " ", s)`: the flag records
whether the previous character was inside a whitespace run. -/
def collapseWsAux : Bool → List Char → List Char
  | _, [] => []
  | prevWs, c :: cs =>
    if isWs c then
      if prevWs then collapseWsAux true cs
      else ' ' :: collapseWsAux true cs
    else c :: collapseWsAux false cs

/-- merge_rankings.normalize_name line 107, the substitution
`re.sub(r"\s+", " ", s)`: every whitespace run becomes one space. -/
def collapseWs (l : List Char) : List Char :=
  collapseWsAux false l

/-- Whether a string begins with "the" followed by a whitespace character:
the shape the anchored pattern `^the\s+` matches. -/
def theWsHead : List Char → Bool
  | 't' :: 'h' :: 'e' :: c :: _ => isWs c
  | _ => false

/-- merge_rankings.normalize_name line 109, the substitution
`re.sub(r"^the\s+", "", s)`: one leading "the" and the greedy whitespace run
after it are removed. -/
def dropLeadThe (l : List Char) : List Char :=
  if theWsHead l then (l.drop 3).dropWhile isWs else l

/-- merge_rankings.normalize_name (lines 89-110) on a value that is already a
string: empty strings take the falsy early return, other strings are
stripped, lowercased, comma-replaced, whitespace-collapsed and stripped, and
lose one leading "the ". -/
def normalizeName (s : List Char) : List Char :=
  if s = [] then []
  else dropLeadThe (stripWs (collapseWs (replComma ((stripWs s).map Char.toLower))))

/-- The stoplist of extract_base_and_alias (merge_rankings lines 183-228):
aliases equal to or beginning with one of these entries are discarded. -/
def ignoreList : List (List Char) :=
  [("usa".data), ("uk".data), ("u.k.".data), ("us".data), ("u.s.".data),
   ("china".data), ("prc".data), ("canada".data), ("australia".data),
   ("nz".data), ("n.z.".data), ("singapore".data), ("sg".data),
   ("hong kong".data), ("hk".data), ("taiwan".data), ("japan".data),
   ("jp".data), ("south korea".data), ("korea".data), ("india".data),
   ("in".data), ("germany".data), ("de".data), ("france".data),
   ("fr".data), ("main campus".data), ("main campus.".data), ("main".data),
   ("branch".data), ("branch campus".data), ("campus".data), ("state".data),
   ("city".data), ("center".data), ("centre".data), ("formerly".data),
   ("f.k.a".data), ("f.k.a.".data), ("aka".data), ("previously".data),
   ("merged from".data)]

/-- merge_rankings.extract_base_and_alias (lines 163-238) on string input.
The regex `^(.*?)\s*\((.*?)\)\s*$` matches the stripped, lowercased name
exactly when it ends with a right parenthesis preceded somewhere by a left
parenthesis; the lazy groups make the base stop at the first left
parenthesis and the alias close at the final right parenthesis.  An alias
equal to or beginning with a stoplist entry is replaced by the empty
string. -/
def extractBaseAlias (name : List Char) : List Char × List Char :=
  let s := (stripWs name).map Char.toLower
  if s.getLast? = some ')' ∧ '(' ∈ s.dropLast then
    let p := s.findIdx (· == '(')
    let base := stripWs (s.take p)
    let alias0 := stripWs ((s.drop (p + 1)).dropLast)
    let alias1 :=
      if alias0 ∈ ignoreList ∨ ignoreList.any (fun pat => pat.isPrefixOf alias0)
      then [] else alias0
    (base, alias1)
  else (s, [])

/-- The short-alias blocklist of build_name_keys (lines 287-299). -/
def disallowedShort : List (List Char) :=
  [("usa".data), ("uk".data), ("us".data), ("prc".data), ("nz".data),
   ("sg".data), ("hk".data), ("de".data), ("fr".data), ("jp".data),
   ("in".data)]

/-- The abbreviation table of build_name_keys (lines 304-319). -/
def abbrevTable : List (List Char × List Char) :=
  [(("mit".data), ("massachusetts institute of technology".data)),
   (("caltech".data), ("california institute of technology".data)),
   (("eth zurich".data), ("swiss federal institute of technology zurich".data)),
   (("nus".data), ("national university of singapore".data)),
   (("ntu singapore".data), ("nanyang technological university singapore".data)),
   (("ucl".data), ("university college london".data)),
   (("uc berkeley".data), ("university of california berkeley".data)),
   (("ucla".data), ("university of california los angeles".data)),
   (("usc".data), ("university of southern california".data)),
   (("ucsd".data), ("university of california san diego".data)),
   (("nyu".data), ("new york university".data)),
   (("uc".data), ("university of california".data)),
   (("lse".data), ("london school of economics".data)),
   (("eth".data), ("swiss federal institute of technology".data))]

/-- merge_rankings.build_name_keys (lines 250-324).  The Python set of keys
is modelled as a list; membership is the only operation the matcher performs
on it, so duplicate entries are harmless. -/
def buildNameKeys (name : List Char) : List (List Char) :=
  let ba := extractBaseAlias name
  let baseNorm := normalizeName ba.1
  let aliasNorm := if ba.2 = [] then [] else normalizeName ba.2
  let nameNorm := normalizeName name
  (if nameNorm = [] then [] else [nameNorm]) ++
  (if baseNorm = [] then [] else [baseNorm]) ++
  (if aliasNorm = [] then []
   else
     (if 2 < aliasNorm.length ∧ aliasNorm ∉ disallowedShort then [aliasNorm] else []) ++
     (match abbrevTable.lookup aliasNorm with
      | some e => [e]
      | none => []))

/-- One record of the merged table as the matcher and the final dedup pass
see it: the raw Name, the Country string, and the remaining six columns
(QS_Rank, THE_Rank, USNews_Rank, natureOfRunning, Latitude, Longitude) as
possibly-null values. -/
structure Row where
  Name : List Char
  Country : List Char
  fields : List (Option (List Char))
deriving DecidableEq

/-- The country comparison key of is_same_university (lines 337-344): the
Country field stripped and lowercased; a falsy (empty) Country stays
empty. -/
def countryKey (r : Row) : List Char :=
  (stripWs r.Country).map Char.toLower

/-- The generic institutional words of the safety check (lines 357-365). -/
def commonWords : List (List Char) :=
  [("university".data), ("college".data), ("institute".data),
   ("school".data), ("academy".data), ("center".data), ("centre".data)]

/-- Python `str.split()` with no separator argument: cut at whitespace runs,
producing no empty words.  The first argument accumulates the current word
in reverse. -/
def splitWsAux : List Char → List Char → List (List Char)
  | [], cur => if cur = [] then [] else [cur.reverse]
  | c :: cs, cur =>
    if isWs c then
      if cur = [] then splitWsAux cs []
      else cur.reverse :: splitWsAux cs []
    else splitWsAux cs (c :: cur)

/-- Python `key.split()`. -/
def splitWs (l : List Char) : List (List Char) :=
  splitWsAux l []

/-- Whether a key has at least one word outside the generic set: the check
`not words.issubset(common_words)` of is_same_university (lines 367-374). -/
def substantialKey (k : List Char) : Bool :=
  !((splitWs k).all (fun w => commonWords.contains w))

/-- merge_rankings.is_same_university (lines 327-376), with each record's
`_name_keys` column equal to build_name_keys of its Name, exactly as
deduplicate_fuzzy sets it (line 439) before matching. -/
def isSameUniversity (a b : Row) : Bool :=
  let ca := countryKey a
  let cb := countryKey b
  if ca = [] ∨ cb = [] ∨ ca ≠ cb then false
  else
    let inter := (buildNameKeys a.Name).filter
      (fun k => (buildNameKeys b.Name).contains k)
    if inter = [] then false
    else inter.any substantialKey

/-- A default record, used only to totalise list indexing. -/
def rowDefault : Row := ⟨[], [], []⟩

/-- The inner scan of deduplicate_fuzzy (lines 455-463): a seed at index i
collects every later index, not yet consumed, whose record directly matches
the seed. -/
def groupOf (rows : List Row) (used : List Nat) (i : Nat) : List Nat :=
  i :: ((List.range rows.length).filter
    (fun j => decide (i < j) && !(used.contains j) &&
      isSameUniversity (rows.getD i rowDefault) (rows.getD j rowDefault)))

/-- The outer scan of deduplicate_fuzzy (lines 446-465) over the row
indices, carrying the list of consumed indices. -/
def dedupGo (rows : List Row) : List Nat → List Nat → List (List Nat)
  | [], _ => []
  | i :: rest, used =>
    if used.contains i then dedupGo rows rest used
    else groupOf rows used i :: dedupGo rows rest (used ++ groupOf rows used i)

/-- The grouping deduplicate_fuzzy computes: one group of row indices per
kept record, seeded in row order. -/
def dedupGroups (rows : List Row) : List (List Nat) :=
  dedupGo rows (List.range rows.length) []

/-- The completeness score `row.notna().sum()` (line 485): Name, Country and
the temporary `_name_keys` column are always non-null and contribute the
constant 3. -/
def score (r : Row) : Nat :=
  3 + r.fields.countP Option.isSome

/-- One insertion of Python's stable `sort(key=..., reverse=True)`
(line 489): the earlier record is placed before every later-seen record of
equal or smaller score, so ties keep first-seen order. -/
def insertScored (x : Row) : List Row → List Row
  | [] => [x]
  | y :: ys => if score y ≤ score x then x :: y :: ys else y :: insertScored x ys

/-- Python's stable descending sort of the group by completeness score. -/
def sortScored : List Row → List Row
  | [] => []
  | x :: xs => insertScored x (sortScored xs)

/-- The specification's representative choice: the maximum-score record with
ties broken in favour of the earliest-seen record. -/
def amaxScore : List Row → Option Row
  | [] => none
  | x :: xs =>
    match amaxScore xs with
    | none => some x
    | some m => some (if score x < score m then m else x)

/-- Whether a representative field is fillable: `pd.isna(v) or v == ""`
(line 508). -/
def needsFill : Option (List Char) → Bool
  | none => true
  | some v => decide (v = [])

/-- Whether a sibling value can be donated:
`pd.notna(v) and str(v).strip() != ""` (line 512). -/
def donates : Option (List Char) → Bool
  | none => false
  | some v => decide (stripWs v ≠ [])

/-- One fill decision (lines 508-515): a fillable field takes the value of
the first sibling, in sorted order, donating a value for column k. -/
def fillOne (sibs : List Row) (k : Nat) (o : Option (List Char)) :
    Option (List Char) :=
  if needsFill o then
    match sibs.find? (fun s => donates (s.fields.getD k none)) with
    | some s => s.fields.getD k none
    | none => o
  else o

/-- The fill loop over the representative's columns, k counting the column
index. -/
def fillFrom (sibs : List Row) :
    Nat → List (Option (List Char)) → List (Option (List Char))
  | _, [] => []
  | k, o :: os => fillOne sibs k o :: fillFrom sibs (k + 1) os

/-- The merge of one group of equivalent records (lines 481-520): sort the
group by completeness, keep the most complete record, and fill its null
fields from the siblings; Name and Country are skipped by the fill loop
(line 505), so they stay the representative's own. -/
def mergeGroup (g : List Row) : Row :=
  match sortScored g with
  | [] => rowDefault
  | rep :: sibs => { rep with fields := fillFrom sibs 0 rep.fields }

/-- One row of the accumulating merged list of merge_datasets: the QS
columns (lines 577-588) plus the rank fields the later passes add.  A key
absent from the Python dict is a null column of the resulting DataFrame, so
both are modelled as none. -/
structure MRow where
  Name : List Char
  country : List Char
  name_normalized : List Char
  qs_rank : Option (List Char)
  the_rank : Option (List Char)
  usnews_rank : Option (List Char)
  status : Option (List Char)
  latitude : Option (List Char)
  longitude : Option (List Char)
deriving DecidableEq

/-- One row of a cleaned source table (THE, lines 609-613, or USNews,
lines 630-633): a raw Name, the normalized country and name, and that
source's rank. -/
structure SourceRow where
  Name : List Char
  country : List Char
  name_normalized : List Char
  rank : List Char
deriving DecidableEq

/-- The lookup key `(record["country"], record["name_normalized"])`
(line 662). -/
def mKey (r : MRow) : List Char × List Char :=
  (r.country, r.name_normalized)

/-- The lookup key of a source row (lines 674 and 709). -/
def sKey (r : SourceRow) : List Char × List Char :=
  (r.country, r.name_normalized)

/-- create_lookup_map (lines 658-664): indices are written into the dict in
order, so a repeated key keeps the last index.  The model returns that last
matching index directly. -/
def lookupLast : List MRow → List Char × List Char → Option Nat
  | [], _ => none
  | r :: rs, k =>
    match lookupLast rs k with
    | some j => some (j + 1)
    | none => if mKey r = k then some 0 else none

/-- In-place update of one list element, as `merged_list[i][field] = v`
performs it. -/
def modifyAt {α : Type} : List α → Nat → (α → α) → List α
  | [], _, _ => []
  | r :: rs, 0, f => f r :: rs
  | r :: rs, n + 1, f => r :: modifyAt rs n f

/-- The fresh row appended on a THE miss (lines 682-693): only the THE rank
is populated. -/
def theNewRow (t : SourceRow) : MRow :=
  { Name := t.Name, country := t.country, name_normalized := t.name_normalized,
    qs_rank := none, the_rank := some t.rank, usnews_rank := none,
    status := none, latitude := none, longitude := none }

/-- The fresh row appended on a USNews miss (lines 717-728): only the USNews
rank is populated. -/
def usNewRow (u : SourceRow) : MRow :=
  { Name := u.Name, country := u.country, name_normalized := u.name_normalized,
    qs_rank := none, the_rank := none, usnews_rank := some u.rank,
    status := none, latitude := none, longitude := none }

/-- The THE pass of merge_datasets (lines 667-694): the lookup map is built
once from the base list before the loop, so every hit indexes a pre-pass row
and every miss appends at the end. -/
def mergeSourceTHE (base : List MRow) (ts : List SourceRow) : List MRow :=
  ts.foldl
    (fun acc t =>
      match lookupLast base (sKey t) with
      | some i => modifyAt acc i (fun r => { r with the_rank := some t.rank })
      | none => acc ++ [theNewRow t])
    base

/-- The USNews pass of merge_datasets (lines 702-729), identical in shape to
the THE pass but keyed by a lookup rebuilt from the THE-merged list. -/
def mergeSourceUS (base : List MRow) (us : List SourceRow) : List MRow :=
  us.foldl
    (fun acc u =>
      match lookupLast base (sKey u) with
      | some i => modifyAt acc i (fun r => { r with usnews_rank := some u.rank })
      | none => acc ++ [usNewRow u])
    base

/-- merge_datasets (lines 640-740): QS is the base list, the THE pass runs
against it, and the USNews pass runs against the THE-merged result. -/
def mergeDatasets (qs : List MRow) (ts us : List SourceRow) : List MRow :=
  mergeSourceUS (mergeSourceTHE qs ts) us

/-- A Python value as the normalization functions can receive it from a
pandas column: a string, None, NaN, an integer or a boolean. -/
inductive PyVal where
  | pstr (s : List Char)
  | pnone
  | pnan
  | pint (n : Int)
  | pbool (b : Bool)
deriving DecidableEq

/-- The exception a misused string method raises. -/
inductive PyErr where
  | attributeError
deriving DecidableEq

/-- pandas `pd.isna` on the modelled values. -/
def pyIsNa : PyVal → Bool
  | .pnone => true
  | .pnan => true
  | _ => false

/-- Python truthiness of the modelled values (`not name`); NaN is truthy. -/
def pyTruthy : PyVal → Bool
  | .pstr s => !s.isEmpty
  | .pnone => false
  | .pnan => true
  | .pint n => decide (n ≠ 0)
  | .pbool b => b

/-- Python `str(v)` for the modelled values, always defined. -/
def pyStr : PyVal → List Char
  | .pstr s => s
  | .pnone => ("None".data)
  | .pnan => ("nan".data)
  | .pint n => (toString n).data
  | .pbool b => if b then ("True".data) else ("False".data)

/-- Python `v.lower()`: defined on strings, an AttributeError otherwise. -/
def pyLowerM : PyVal → Except PyErr PyVal
  | .pstr s => .ok (.pstr (s.map Char.toLower))
  | _ => .error .attributeError

/-- Python `v.strip()`: defined on strings, an AttributeError otherwise. -/
def pyStripM : PyVal → Except PyErr PyVal
  | .pstr s => .ok (.pstr (stripWs s))
  | _ => .error .attributeError

/-- Python `v.replace(",", " ")`: defined on strings only. -/
def pyReplaceM : PyVal → Except PyErr PyVal
  | .pstr s => .ok (.pstr (replComma s))
  | _ => .error .attributeError

/-- Extraction of the string a regex substitution is applied to. -/
def asStr : PyVal → Except PyErr (List Char)
  | .pstr s => .ok s
  | _ => .error .attributeError

/-- merge_rankings.normalize_name (lines 89-110) over arbitrary values, its
string methods modelled in the exception monad: missing and falsy values
take the early empty return before any method is called. -/
def normalizeNameV (v : PyVal) : Except PyErr (List Char) :=
  if pyIsNa v || !pyTruthy v then .ok []
  else do
    let s1 ← pyStripM (.pstr (pyStr v))
    let s2 ← pyLowerM s1
    let s3 ← pyReplaceM s2
    let s4 ← asStr s3
    .ok (dropLeadThe (stripWs (collapseWs s4)))

/-- merge_rankings.normalize_country (lines 113-136): the country alias
table. -/
def countryMap : List (List Char × List Char) :=
  [(("United States".data), ("United States of America".data)),
   (("USA".data), ("United States of America".data)),
   (("US".data), ("United States of America".data)),
   (("UK".data), ("United Kingdom".data)),
   (("South Korea".data), ("Republic of Korea".data)),
   (("North Korea".data), ("Democratic People's Republic of Korea".data)),
   (("Netherlands".data), ("Netherlands".data)),
   (("Holland".data), ("Netherlands".data)),
   (("Macao".data), ("Macau".data))]

/-- `country_map.get(country, country)` (line 135). -/
def countryMapApply (s : List Char) : List Char :=
  match countryMap.lookup s with
  | some c => c
  | none => s

/-- merge_rankings.normalize_country (lines 113-136) over arbitrary values:
NaN and None return the empty string before any method is called. -/
def normalizeCountryV (v : PyVal) : Except PyErr (List Char) :=
  if pyIsNa v then .ok []
  else do
    let s1 ← pyStripM (.pstr (pyStr v))
    let s2 ← asStr s1
    .ok (stripWs (countryMapApply s2))

/-- The private-indicator terms of normalize_nature_of_running
(line 151). -/
def privateTerms : List (List Char) :=
  [("private".data), ("not for profit".data), ("independent".data),
   ("proprietary".data)]

/-- The public-indicator terms of normalize_nature_of_running (line 156). -/
def publicTerms : List (List Char) :=
  [("public".data), ("government".data), ("state".data), ("federal".data)]

/-- Python's substring test `pat in s` on strings. -/
def isSubstr (pat : List Char) : List Char → Bool
  | [] => pat.isEmpty
  | c :: rest => pat.isPrefixOf (c :: rest) || isSubstr pat rest

/-- merge_rankings.normalize_nature_of_running (lines 139-160) over
arbitrary values: None models both the NaN early return and the unclear
default, which the specification's data model displays as Unknown. -/
def normalizeStatusV (v : PyVal) : Except PyErr (Option (List Char)) :=
  if pyIsNa v then .ok none
  else do
    let s1 ← pyStripM (.pstr (pyStr v))
    let s2 ← pyLowerM s1
    let s ← asStr s2
    if privateTerms.any (fun t => isSubstr t s) then .ok (some ("Private".data))
    else if publicTerms.any (fun t => isSubstr t s) then .ok (some ("Public".data))
    else .ok none

/-- The NFKD-then-ASCII-encode step of merge_uni.normalize_name (line 8),
modelled on the ASCII plane, where NFKD is the identity and the ignoring
encode drops exactly the characters at or above code point 128. -/
def asciiFold (s : List Char) : List Char :=
  s.filter (fun c => decide (c.toNat < 128))

/-- The deletion `re.sub(r"[^a-z0-9\s]", "", name)` of merge_uni (line 9). -/
def keepAlnumWs (s : List Char) : List Char :=
  s.filter (fun c =>
    (decide ('a' ≤ c) && decide (c ≤ 'z')) ||
    (decide ('0' ≤ c) && decide (c ≤ '9')) || isWs c)

/-- merge_uni.normalize_name (merge_uni.py lines 6-11) over arbitrary
values: `name.lower()` is called before any missing-value guard, so every
non-string input raises an AttributeError. -/
def normalizeNameUniV (v : PyVal) : Except PyErr (List Char) := do
  let s1 ← pyLowerM v
  let s2 ← pyStripM s1
  let s3 ← asStr s2
  .ok (stripWs (collapseWs (keepAlnumWs (asciiFold s3))))

/-- The longest-common-subsequence length with explicit fuel; the fuel keeps
the recursion structural so concrete values reduce in the kernel. -/
def lcsFuel : Nat → List Char → List Char → Nat
  | 0, _, _ => 0
  | _ + 1, [], _ => 0
  | _ + 1, _ :: _, [] => 0
  | fuel + 1, a :: xs, b :: ys =>
    if a = b then lcsFuel fuel xs ys + 1
    else max (lcsFuel fuel (a :: xs) ys) (lcsFuel fuel xs (b :: ys))

/-- Longest common subsequence of two strings; `|a| + |b|` steps always
suffice, each recursive call dropping at least one character. -/
def lcs (a b : List Char) : Nat :=
  lcsFuel (a.length + b.length) a b

/-- rapidfuzz `fuzz.ratio(a, b) >= 90` (merge_uni line 57): the ratio is
`100·(|a|+|b|−d)/(|a|+|b|)` for the insert/delete edit distance d, and
`|a|+|b|−d = 2·lcs(a,b)`, giving the exact integer comparison below. -/
def ratioGe90 (a b : List Char) : Bool :=
  decide (90 * (a.length + b.length) ≤ 200 * lcs a b)

/-- One input row of the merge_uni deduplication loop (lines 49-53), its
normalized name precomputed by the loader (line 34). -/
structure InRow where
  name : List Char
  name_normalized : List Char
  country : List Char
  source : List Char
deriving DecidableEq

/-- One accepted canonical record of merge_uni (lines 72-77). -/
structure URec where
  name : List Char
  name_normalized : List Char
  country : List Char
  sources : List (List Char)
deriving DecidableEq

/-- The literal country placeholder of merge_uni. -/
def unknownC : List Char :=
  ("Unknown".data)

/-- The update of a matched record (merge_uni lines 62-69): the row's source
joins the record's set and an Unknown country is replaced. -/
def updRec (row : InRow) (r : URec) : URec :=
  { r with
    sources :=
      if r.sources.contains row.source then r.sources
      else r.sources ++ [row.source],
    country :=
      if row.country ≠ unknownC ∧ r.country = unknownC then row.country
      else r.country }

/-- The inner update loop (lines 62-69): the first accepted record whose
normalized name equals the matched name is updated. -/
def updateFirst (row : InRow) (mn : List Char) : List URec → List URec
  | [] => []
  | r :: rs =>
    if r.name_normalized = mn then updRec row r :: rs
    else r :: updateFirst row mn rs

/-- One iteration of the merge_uni deduplication loop (lines 49-77) on the
state (accepted records, seen normalized names in acceptance order): the row
merges into the first seen name within ratio 90, otherwise it is appended as
a new canonical record. -/
def uniStep (st : List URec × List (List Char)) (row : InRow) :
    List URec × List (List Char) :=
  match st.2.find? (fun ex => ratioGe90 row.name_normalized ex) with
  | some mn => (updateFirst row mn st.1, st.2)
  | none =>
      (st.1 ++ [{ name := row.name, name_normalized := row.name_normalized,
                  country := row.country, sources := [row.source] }],
       st.2 ++ [row.name_normalized])

/-- The full deduplication scan of merge_uni.py: the accepted records after
every input row has been processed in order. -/
def uniDedup (rows : List InRow) : List URec :=
  (rows.foldl uniStep ([], [])).1

example : ratioGe90 ("abcdefg".data) ("abcdef".data) = true := by decide

example : ratioGe90 ("abcde".data) ("abcdefg".data) = false := by decide

example : extractBaseAlias ("Massachusetts Institute of Technology (MIT)".data)
    = (("massachusetts institute of technology".data), ("mit".data)) := by decide

example : extractBaseAlias ("University of South Alabama (USA)".data)
    = (("university of south alabama".data), []) := by decide

example :
    isSameUniversity
      ⟨("Massachusetts Institute of Technology (MIT)".data),
        ("United States of America".data), []⟩
      ⟨("MIT".data), ("United States of America".data), []⟩ = true := by decide

example :
    isSameUniversity
      ⟨("Harvard University".data), ("United States of America".data), []⟩
      ⟨("Cornell University".data), ("United States of America".data), []⟩
      = false := by decide

example : normalizeName ("the the a".data) = ("the a".data) := by decide

example : normalizeName (normalizeName ("the the a".data)) = ("a".data) := by decide

example : normalizeName ("  University of California, Berkeley ".data)
    = ("university of california berkeley".data) := by decide

example : normalizeName ("The University of Georgia".data)
    = ("university of georgia".data) := by decide

/-! General lemmas about the character and list operations of the model. -/

theorem char_eq_iff_toNat {c d : Char} : c = d ↔ c.toNat = d.toNat := by
  constructor
  · intro h; rw [h]
  · intro h
    apply Char.eq_of_val_eq
    apply UInt32.eq_of_toBitVec_eq
    apply BitVec.eq_of_toNat_eq
    exact h

theorem char_toNat_ofNat {n : Nat} (h : n.isValidChar) :
    (Char.ofNat n).toNat = n := by
  unfold Char.ofNat
  rw [dif_pos h]
  rfl

theorem toLower_of_upper {c : Char} (h : 65 ≤ c.toNat ∧ c.toNat ≤ 90) :
    (Char.toLower c).toNat = c.toNat + 32 := by
  unfold Char.toLower
  rw [if_pos ⟨h.1, h.2⟩]
  exact char_toNat_ofNat (Or.inl (by omega))

theorem toLower_of_not_upper {c : Char} (h : ¬(65 ≤ c.toNat ∧ c.toNat ≤ 90)) :
    Char.toLower c = c := by
  unfold Char.toLower
  rw [if_neg h]

theorem toLower_idem (c : Char) : c.toLower.toLower = c.toLower := by
  by_cases h : 65 ≤ c.toNat ∧ c.toNat ≤ 90
  · have h1 := toLower_of_upper h
    exact toLower_of_not_upper (by omega)
  · rw [toLower_of_not_upper h, toLower_of_not_upper h]

theorem isWs_iff_toNat (c : Char) :
    isWs c = true ↔
      (c.toNat = 32 ∨ c.toNat = 9 ∨ c.toNat = 10 ∨ c.toNat = 13 ∨
        c.toNat = 12 ∨ c.toNat = 11) := by
  have v1 : (' ' : Char).toNat = 32 := by decide
  have v2 : ('\t' : Char).toNat = 9 := by decide
  have v3 : ('\n' : Char).toNat = 10 := by decide
  have v4 : ('\x0d' : Char).toNat = 13 := by decide
  have v5 : ('\x0c' : Char).toNat = 12 := by decide
  have v6 : ('\x0b' : Char).toNat = 11 := by decide
  simp only [isWs, Bool.or_eq_true, decide_eq_true_eq, char_eq_iff_toNat,
    v1, v2, v3, v4, v5, v6]
  tauto

theorem isWs_toLower (c : Char) : isWs c.toLower = isWs c := by
  by_cases h : 65 ≤ c.toNat ∧ c.toNat ≤ 90
  · have h1 := toLower_of_upper h
    have hA : isWs c.toLower = false := by
      cases hb : isWs c.toLower
      · rfl
      · exfalso; have := (isWs_iff_toNat _).mp hb; omega
    have hB : isWs c = false := by
      cases hb : isWs c
      · rfl
      · exfalso; have := (isWs_iff_toNat _).mp hb; omega
    rw [hA, hB]
  · rw [toLower_of_not_upper h]

theorem toLower_ne_comma {c : Char} (h : c ≠ ',') : c.toLower ≠ ',' := by
  by_cases hu : 65 ≤ c.toNat ∧ c.toNat ≤ 90
  · have h1 := toLower_of_upper hu
    intro he
    rw [char_eq_iff_toNat] at he
    have : (',' : Char).toNat = 44 := by decide
    omega
  · rw [toLower_of_not_upper hu]; exact h

theorem head_dropWhile_false {α : Type} (p : α → Bool) (l : List α) {c : α}
    (h : (l.dropWhile p).head? = some c) : p c = false := by
  induction l with
  | nil => simp [List.dropWhile] at h
  | cons a t ih =>
    by_cases hp : p a = true
    · rw [List.dropWhile_cons, if_pos hp] at h
      exact ih h
    · rw [List.dropWhile_cons, if_neg hp] at h
      simp only [List.head?_cons, Option.some.injEq] at h
      subst h
      simpa using hp

theorem dropWhile_fixed_of_head {α : Type} (p : α → Bool) (l : List α)
    (h : ∀ c, l.head? = some c → p c = false) : l.dropWhile p = l := by
  cases l with
  | nil => rfl
  | cons a t =>
    rw [List.dropWhile_cons, if_neg]
    simp [h a rfl]

theorem dropWhile_idem {α : Type} (p : α → Bool) (l : List α) :
    (l.dropWhile p).dropWhile p = l.dropWhile p :=
  dropWhile_fixed_of_head p _ (fun _ hc => head_dropWhile_false p l hc)

theorem dropWhile_eq_drop {α : Type} (p : α → Bool) (l : List α) :
    ∃ n, l.dropWhile p = l.drop n := by
  induction l with
  | nil => exact ⟨0, rfl⟩
  | cons a t ih =>
    by_cases hp : p a = true
    · obtain ⟨n, hn⟩ := ih
      exact ⟨n + 1, by rw [List.dropWhile_cons, if_pos hp]; simpa using hn⟩
    · exact ⟨0, by rw [List.dropWhile_cons, if_neg hp, List.drop_zero]⟩

theorem rstrip_eq_take (l : List Char) : ∃ n, rstripWs l = l.take n := by
  refine ⟨(l.reverse.dropWhile isWs).reverse.length, ?_⟩
  obtain ⟨t, ht⟩ := List.dropWhile_suffix (l := l.reverse) isWs
  have hl : (l.reverse.dropWhile isWs).reverse ++ t.reverse = l := by
    have h2 := congrArg List.reverse ht
    rw [List.reverse_append, List.reverse_reverse] at h2
    exact h2
  have h3 := List.take_left ((l.reverse.dropWhile isWs).reverse) t.reverse
  rw [hl] at h3
  exact h3.symm

theorem head_take {α : Type} {n : Nat} {l : List α} {c : α}
    (h : (l.take n).head? = some c) : l.head? = some c := by
  cases l with
  | nil => simp at h
  | cons a t =>
    cases n with
    | zero => simp at h
    | succ m => simpa using h

theorem head_rstrip {l : List Char} {c : Char}
    (h : (rstripWs l).head? = some c) : l.head? = some c := by
  obtain ⟨n, hn⟩ := rstrip_eq_take l
  rw [hn] at h
  exact head_take h

theorem strip_no_lead (l : List Char) : (stripWs l).dropWhile isWs = stripWs l := by
  apply dropWhile_fixed_of_head
  intro c hc
  exact head_dropWhile_false isWs l (head_rstrip hc)

theorem rstrip_idem (l : List Char) : rstripWs (rstripWs l) = rstripWs l := by
  unfold rstripWs
  rw [List.reverse_reverse, dropWhile_idem]

theorem rstrip_fix_drop {l : List Char} (h : rstripWs l = l) (m : Nat) :
    rstripWs (l.drop m) = l.drop m := by
  have hrev : l.reverse.dropWhile isWs = l.reverse := by
    have h2 := congrArg List.reverse h
    rw [rstripWs, List.reverse_reverse] at h2
    exact h2
  have hhead : ∀ c, l.reverse.head? = some c → isWs c = false := by
    intro c hc
    apply head_dropWhile_false isWs l.reverse
    rw [hrev]; exact hc
  unfold rstripWs
  rw [List.reverse_drop,
    dropWhile_fixed_of_head isWs _ (fun c hc => hhead c (head_take hc)),
    ← List.reverse_drop, List.reverse_reverse]

theorem mem_rstrip {c : Char} {l : List Char} (h : c ∈ rstripWs l) : c ∈ l := by
  obtain ⟨n, hn⟩ := rstrip_eq_take l
  rw [hn] at h
  exact List.take_subset n l h

theorem mem_strip {c : Char} {l : List Char} (h : c ∈ stripWs l) : c ∈ l :=
  (List.dropWhile_suffix isWs).subset (mem_rstrip h)

theorem mem_collapse_aux {c : Char} (b : Bool) (l : List Char)
    (h : c ∈ collapseWsAux b l) : c ∈ l ∨ c = ' ' := by
  induction l generalizing b with
  | nil => simp [collapseWsAux] at h
  | cons a t ih =>
    by_cases hw : isWs a = true
    · cases b with
      | true =>
        simp only [collapseWsAux, hw, if_true] at h
        rcases ih true h with h1 | h1
        · exact Or.inl (List.mem_cons_of_mem a h1)
        · exact Or.inr h1
      | false =>
        simp only [collapseWsAux, hw, if_true, if_false] at h
        rcases List.mem_cons.mp h with h1 | h1
        · exact Or.inr h1
        · rcases ih true h1 with h2 | h2
          · exact Or.inl (List.mem_cons_of_mem a h2)
          · exact Or.inr h2
    · simp only [collapseWsAux, hw, if_false] at h
      rcases List.mem_cons.mp h with h1 | h1
      · exact Or.inl (by simp [h1])
      · rcases ih false h1 with h2 | h2
        · exact Or.inl (List.mem_cons_of_mem a h2)
        · exact Or.inr h2

theorem collapse_aux_length (b : Bool) (l : List Char) :
    (collapseWsAux b l).length ≤ l.length := by
  induction l generalizing b with
  | nil => simp [collapseWsAux]
  | cons a t ih =>
    have h1 := ih true
    have h2 := ih false
    by_cases hw : isWs a = true <;> cases b <;>
      simp [collapseWsAux, hw] <;> omega

theorem collapse_aux_idem (l : List Char) :
    collapseWsAux false (collapseWsAux false l) = collapseWsAux false l ∧
    collapseWsAux false (collapseWsAux true l) = collapseWsAux true l ∧
    collapseWsAux true (collapseWsAux true l) = collapseWsAux true l := by
  induction l with
  | nil => exact ⟨rfl, rfl, rfl⟩
  | cons a t ih =>
    obtain ⟨ih1, ih2, ih3⟩ := ih
    by_cases hw : isWs a = true
    · have hsp : isWs ' ' = true := by decide
      refine ⟨?_, ?_, ?_⟩
      · simp [collapseWsAux, hw, hsp, ih3]
      · simp [collapseWsAux, hw, ih2]
      · simp [collapseWsAux, hw, ih3]
    · refine ⟨?_, ?_, ?_⟩ <;> simp [collapseWsAux, hw, ih1]

theorem ite_cond_true {α : Type} (x y : α) : (if true = true then x else y) = x := rfl

theorem ite_cond_false {α : Type} (x y : α) : (if false = true then x else y) = y := rfl

theorem aux_true_eq_false_head {l : List Char}
    (h : ∀ d ds, l = d :: ds → isWs d = false) :
    collapseWsAux true l = collapseWsAux false l := by
  cases l with
  | nil => rfl
  | cons d ds => simp [collapseWsAux, h d ds rfl]

theorem collapse_fix_cons_ws {a : Char} {t : List Char} (hw : isWs a = true)
    (h : collapseWsAux false (a :: t) = a :: t) :
    a = ' ' ∧ collapseWsAux false t = t ∧
      (∀ d ds, t = d :: ds → isWs d = false) := by
  simp only [collapseWsAux, hw, if_true, ite_cond_true, ite_cond_false, List.cons.injEq] at h
  have hhead : ∀ d ds, t = d :: ds → isWs d = false := by
    intro d ds hds
    subst hds
    by_cases hd : isWs d = true
    · exfalso
      have h2 := h.2
      simp only [collapseWsAux, hd, if_true, ite_cond_true] at h2
      have h3 := congrArg List.length h2
      have h4 := collapse_aux_length true ds
      simp only [List.length_cons] at h3
      omega
    · simpa using hd
  refine ⟨h.1.symm, ?_, hhead⟩
  rw [← aux_true_eq_false_head hhead]
  exact h.2

theorem collapse_fix_tail {a : Char} {t : List Char}
    (h : collapseWsAux false (a :: t) = a :: t) :
    collapseWsAux false t = t := by
  by_cases hw : isWs a = true
  · exact (collapse_fix_cons_ws hw h).2.1
  · simp [collapseWsAux, hw] at h
    exact h

theorem collapse_fix_drop {l : List Char}
    (h : collapseWsAux false l = l) (m : Nat) :
    collapseWsAux false (l.drop m) = l.drop m := by
  induction m with
  | zero => simpa using h
  | succ n ihm =>
    have hd : l.drop (n + 1) = (l.drop n).drop 1 := by
      rw [List.drop_drop]
    rw [hd]
    cases hc : l.drop n with
    | nil => simp [collapseWsAux]
    | cons a t =>
      rw [hc] at ihm
      simpa using collapse_fix_tail ihm

theorem collapse_fix_take :
    ∀ (l : List Char), collapseWsAux false l = l →
      ∀ (m : Nat), collapseWsAux false (l.take m) = l.take m := by
  intro l
  induction l with
  | nil => intro _ m; simp [collapseWsAux]
  | cons a t ih =>
    intro h m
    cases m with
    | zero => rfl
    | succ n =>
      rw [List.take_succ_cons]
      by_cases hw : isWs a = true
      · obtain ⟨ha, hfix, hhead⟩ := collapse_fix_cons_ws hw h
        have htk : ∀ d ds, t.take n = d :: ds → isWs d = false := by
          intro d ds hds
          cases t with
          | nil => simp at hds
          | cons d0 ds0 =>
            cases n with
            | zero => simp at hds
            | succ k =>
              rw [List.take_succ_cons] at hds
              have hd0 : d = d0 := by
                have := congrArg List.head? hds
                simpa using this.symm
              subst hd0
              exact hhead d ds0 rfl
        subst ha
        have hsp : isWs ' ' = true := by decide
        simp only [collapseWsAux, hsp, if_true, ite_cond_true, ite_cond_false]
        rw [aux_true_eq_false_head htk, ih hfix n]
      · have h2 := ih (collapse_fix_tail h) n
        simp [collapseWsAux, hw, h2]

theorem collapse_fix_strip (w : List Char) :
    collapseWsAux false (stripWs (collapseWs w)) = stripWs (collapseWs w) := by
  have h0 : collapseWsAux false (collapseWs w) = collapseWs w :=
    (collapse_aux_idem w).1
  unfold stripWs
  obtain ⟨n1, e1⟩ := dropWhile_eq_drop isWs (collapseWs w)
  rw [e1]
  obtain ⟨n2, e2⟩ := rstrip_eq_take ((collapseWs w).drop n1)
  rw [e2]
  exact collapse_fix_take _ (collapse_fix_drop h0 n1) n2

theorem normalizeName_invariants (x : List Char) :
    (normalizeName x).dropWhile isWs = normalizeName x ∧
    rstripWs (normalizeName x) = normalizeName x ∧
    collapseWsAux false (normalizeName x) = normalizeName x ∧
    ∀ c ∈ normalizeName x, c.toLower = c ∧ c ≠ ',' := by
  by_cases hx : x = []
  · subst hx
    refine ⟨rfl, rfl, rfl, ?_⟩
    intro c hc
    simp [normalizeName] at hc
  · have hnn : normalizeName x =
        dropLeadThe (stripWs (collapseWs (replComma ((stripWs x).map Char.toLower)))) := by
      rw [normalizeName, if_neg hx]
    set w := replComma ((stripWs x).map Char.toLower) with hw
    set z := stripWs (collapseWs w) with hz
    have z1 : z.dropWhile isWs = z := strip_no_lead _
    have z2 : rstripWs z = z := rstrip_idem _
    have z3 : collapseWsAux false z = z := collapse_fix_strip w
    have z4 : ∀ c ∈ z, c.toLower = c ∧ c ≠ ',' := by
      intro c hc
      have hc2 : c ∈ collapseWs w := mem_strip hc
      rcases mem_collapse_aux false w hc2 with hcw | hsp
      · rw [hw] at hcw
        simp only [replComma, List.mem_map] at hcw
        obtain ⟨d, hd, hcd⟩ := hcw
        obtain ⟨e, _, hde⟩ := hd
        by_cases hdc : d = ','
        · rw [if_pos hdc] at hcd
          subst hcd
          exact ⟨by decide, by decide⟩
        · rw [if_neg hdc] at hcd
          subst hcd
          subst hde
          exact ⟨toLower_idem e, hdc⟩
      · subst hsp
        exact ⟨by decide, by decide⟩
    obtain ⟨m, hm⟩ : ∃ m, dropLeadThe z = z.drop m := by
      unfold dropLeadThe
      by_cases ht : theWsHead z = true
      · rw [if_pos ht]
        obtain ⟨k, hk⟩ := dropWhile_eq_drop isWs (z.drop 3)
        exact ⟨3 + k, by rw [hk, List.drop_drop]⟩
      · rw [if_neg ht]
        exact ⟨0, rfl⟩
    refine ⟨?_, ?_, ?_, ?_⟩
    · rw [hnn]
      unfold dropLeadThe
      by_cases ht : theWsHead z = true
      · rw [if_pos ht]
        exact dropWhile_idem _ _
      · rw [if_neg ht]
        exact z1
    · rw [hnn, hm]
      exact rstrip_fix_drop z2 m
    · rw [hnn, hm]
      exact collapse_fix_drop z3 m
    · rw [hnn, hm]
      intro c hc
      exact z4 c (List.drop_subset m z hc)

/-- C7 counterexample: applying normalize_name twice to "the the a" gives
"a", while one application gives "the a" — the leading-"the" substitution
fires once per application, so normalize_name is not idempotent. -/
theorem normalize_name_not_idempotent_cex :
    normalizeName (normalizeName ("the the a".data))
      ≠ normalizeName ("the the a".data) := by decide

/-- C7 (amended): normalize_name is idempotent on every input whose
normalized form does not itself begin with "the" followed by whitespace;
on the remaining inputs a second application strips another "the". -/
theorem normalize_name_idempotent_amended (x : List Char)
    (h : theWsHead (normalizeName x) = false) :
    normalizeName (normalizeName x) = normalizeName x := by
  obtain ⟨y1, y2, y3, y4⟩ := normalizeName_invariants x
  by_cases hynil : normalizeName x = []
  · rw [hynil]
    simp [normalizeName]
  · rw [normalizeName, if_neg hynil]
    have hstr : stripWs (normalizeName x) = normalizeName x := by
      unfold stripWs
      rw [y1, y2]
    have hmap : (normalizeName x).map Char.toLower = normalizeName x := by
      calc (normalizeName x).map Char.toLower
          = (normalizeName x).map id :=
            List.map_congr_left (fun a ha => (y4 a ha).1)
        _ = normalizeName x := List.map_id _
    have hrep : replComma (normalizeName x) = normalizeName x := by
      unfold replComma
      calc (normalizeName x).map (fun c => if c = ',' then ' ' else c)
          = (normalizeName x).map id :=
            List.map_congr_left (fun a ha => by simp [(y4 a ha).2])
        _ = normalizeName x := List.map_id _
    rw [hstr, hmap, hrep, show collapseWs (normalizeName x) = normalizeName x from y3,
      hstr]
    unfold dropLeadThe
    rw [if_neg (by simp [h])]

/-- Witness for the amended C7 theorem at a concrete input. -/
theorem normalize_name_idempotent_amended_witness :
    normalizeName (normalizeName ("Hello University".data))
      = normalizeName ("Hello University".data) :=
  normalize_name_idempotent_amended ("Hello University".data) (by decide)

/-- C6: with the bracket-aware key sets,
"Massachusetts Institute of Technology (MIT)" and "MIT" in the same country
are matched; for "University of South Alabama (USA)" the alias "usa" is in
the stoplist, so that record gains no key "usa" and fails to match a record
whose only key is "usa". -/
theorem bracket_alias_mit_matched_usa_discarded :
    isSameUniversity
        ⟨("Massachusetts Institute of Technology (MIT)".data),
          ("United States of America".data), []⟩
        ⟨("MIT".data), ("United States of America".data), []⟩ = true ∧
    ("usa".data) ∉ buildNameKeys ("University of South Alabama (USA)".data) ∧
    ("usa".data) ∈ buildNameKeys ("USA".data) ∧
    isSameUniversity
        ⟨("University of South Alabama (USA)".data),
          ("United States of America".data), []⟩
        ⟨("USA".data), ("United States of America".data), []⟩ = false := by
  refine ⟨by decide, by decide, by decide, by decide⟩

/-- C1 counterexample: two records with equal (both empty) trimmed
case-folded Country fields and a shared substantial key are still rejected,
because is_same_university additionally requires a non-empty country. -/
theorem same_university_empty_country_cex :
    countryKey ⟨("Harvard University".data), [], []⟩
        = countryKey ⟨("Harvard University".data), [], []⟩ ∧
    ("harvard university".data) ∈ buildNameKeys ("Harvard University".data) ∧
    substantialKey ("harvard university".data) = true ∧
    isSameUniversity ⟨("Harvard University".data), [], []⟩
        ⟨("Harvard University".data), [], []⟩ = false := by
  refine ⟨rfl, by decide, by decide, by decide⟩

/-- C1 (amended): is_same_university holds iff the records' trimmed,
case-folded Country fields are non-empty and equal, and some key lies in
both records' key sets whose words are not all drawn from the generic
set. -/
theorem same_university_iff (a b : Row) :
    isSameUniversity a b = true ↔
      (countryKey a ≠ [] ∧ countryKey a = countryKey b ∧
        ∃ k, k ∈ buildNameKeys a.Name ∧ k ∈ buildNameKeys b.Name ∧
          substantialKey k = true) := by
  simp only [isSameUniversity]
  by_cases hc : countryKey a = [] ∨ countryKey b = [] ∨ countryKey a ≠ countryKey b
  · rw [if_pos hc]
    simp only [Bool.false_eq_true, false_iff]
    rintro ⟨h1, h2, _⟩
    rcases hc with h | h | h
    · exact h1 h
    · exact h1 (h2.trans h)
    · exact h h2
  · rw [if_neg hc]
    push_neg at hc
    obtain ⟨hc1, _, hc3⟩ := hc
    have hiff : ∀ (l : List (List Char)),
        (if l = [] then false else l.any substantialKey) = l.any substantialKey := by
      intro l; cases l <;> simp
    rw [hiff]
    simp only [List.any_eq_true, List.mem_filter, List.elem_iff]
    constructor
    · rintro ⟨k, ⟨hka, hkb⟩, hs⟩
      exact ⟨hc1, hc3, k, hka, hkb, hs⟩
    · rintro ⟨_, _, k, hka, hkb, hs⟩
      exact ⟨k, ⟨hka, hkb⟩, hs⟩

/-- C8 counterexample: merge_uni's normalize_name calls `.lower()` before
any missing-value guard, so the NaN and None a pandas column can hold raise
an AttributeError instead of normalizing; string input still works. -/
theorem merge_uni_normalize_raises_cex :
    normalizeNameUniV PyVal.pnan = Except.error PyErr.attributeError ∧
    normalizeNameUniV PyVal.pnone = Except.error PyErr.attributeError ∧
    normalizeNameUniV (PyVal.pstr ("MIT".data)) = Except.ok ("mit".data) := by
  refine ⟨rfl, rfl, rfl⟩

/-- C8 (amended): the three merge_rankings normalization functions are total
over every modelled input value, NaN and None mapping to the empty string or
None; merge_uni's normalize_name is total only over strings. -/
theorem normalize_total_amended :
    (∀ v, ∃ s, normalizeNameV v = Except.ok s) ∧
    (∀ v, ∃ s, normalizeCountryV v = Except.ok s) ∧
    (∀ v, ∃ o, normalizeStatusV v = Except.ok o) ∧
    (∀ s, ∃ r, normalizeNameUniV (PyVal.pstr s) = Except.ok r) ∧
    normalizeNameV PyVal.pnan = Except.ok [] ∧
    normalizeNameV PyVal.pnone = Except.ok [] ∧
    normalizeCountryV PyVal.pnan = Except.ok [] ∧
    normalizeStatusV PyVal.pnan = Except.ok none := by
  refine ⟨?_, ?_, ?_, ?_, rfl, rfl, rfl, rfl⟩
  · intro v
    by_cases h : (pyIsNa v || !pyTruthy v) = true
    · exact ⟨[], by rw [normalizeNameV, if_pos h]⟩
    · refine ⟨dropLeadThe (stripWs (collapseWs (replComma
        ((stripWs (pyStr v)).map Char.toLower)))), ?_⟩
      rw [normalizeNameV, if_neg h]
      rfl
  · intro v
    by_cases h : pyIsNa v = true
    · exact ⟨[], by rw [normalizeCountryV, if_pos h]⟩
    · refine ⟨stripWs (countryMapApply (stripWs (pyStr v))), ?_⟩
      rw [normalizeCountryV, if_neg h]
      rfl
  · intro v
    by_cases h : pyIsNa v = true
    · exact ⟨none, by rw [normalizeStatusV, if_pos h]⟩
    · by_cases hp : privateTerms.any (fun t => isSubstr t (pyStr v |> stripWs |>.map Char.toLower)) = true
      · refine ⟨some ("Private".data), ?_⟩
        rw [normalizeStatusV, if_neg h]
        show (if privateTerms.any _ = true then _ else _) = _
        rw [if_pos hp]
      · by_cases hq : publicTerms.any (fun t => isSubstr t (pyStr v |> stripWs |>.map Char.toLower)) = true
        · refine ⟨some ("Public".data), ?_⟩
          rw [normalizeStatusV, if_neg h]
          show (if privateTerms.any _ = true then _ else
            if publicTerms.any _ = true then _ else _) = _
          rw [if_neg hp, if_pos hq]
        · refine ⟨none, ?_⟩
          rw [normalizeStatusV, if_neg h]
          show (if privateTerms.any _ = true then _ else
            if publicTerms.any _ = true then _ else _) = _
          rw [if_neg hp, if_neg hq]
  · intro s
    exact ⟨_, rfl⟩

theorem lookup_val_mem {k e : List Char} {l : List (List Char × List Char)}
    (h : l.lookup k = some e) : e ∈ l.map Prod.snd := by
  induction l with
  | nil => simp at h
  | cons p t ih =>
    obtain ⟨pk, pv⟩ := p
    rw [List.lookup_cons] at h
    by_cases hb : (k == pk) = true
    · rw [hb] at h
      simp only [Option.some.injEq] at h
      subst h
      simp
    · have hb2 : (k == pk) = false := by simpa using hb
      rw [hb2] at h
      exact List.mem_cons_of_mem _ (ih h)

theorem abbrev_vals_long : ∀ e ∈ abbrevTable.map Prod.snd, 2 < e.length := by
  decide

/-- C10 counterexample: for "UC (UC)" the alias "uc" survives the stoplist
and normalizes to 2 characters, yet "uc" IS in the key set, coinciding with
the bracket-stripped base name — the short alias is not always omitted from
the key set. -/
theorem short_alias_in_key_set_cex :
    (extractBaseAlias ("UC (UC)".data)).2 = ("uc".data) ∧
    (normalizeName (extractBaseAlias ("UC (UC)".data)).2).length ≤ 2 ∧
    ("uc".data) ∈ buildNameKeys ("UC (UC)".data) := by decide

/-- C10 (amended): a surviving alias that normalizes to at most 2 characters
contributes no key of its own — it is absent from the key set unless it
coincides with the normalized full name or base — yet its abbreviation-table
expansion is still added, so "University of California (UC)" keeps no key
"uc" but matches the spelled-out "University of California". -/
theorem short_alias_expansion_amended :
    (∀ (name : List Char),
      (extractBaseAlias name).2 ≠ [] →
      (normalizeName (extractBaseAlias name).2).length ≤ 2 →
      normalizeName (extractBaseAlias name).2 ≠ normalizeName name →
      normalizeName (extractBaseAlias name).2 ≠
        normalizeName (extractBaseAlias name).1 →
      normalizeName (extractBaseAlias name).2 ∉ buildNameKeys name) ∧
    (∀ (name e : List Char),
      (extractBaseAlias name).2 ≠ [] →
      abbrevTable.lookup (normalizeName (extractBaseAlias name).2) = some e →
      e ∈ buildNameKeys name) ∧
    (("uc".data) ∉ buildNameKeys ("University of California (UC)".data) ∧
     ("university of california".data)
        ∈ buildNameKeys ("University of California (UC)".data) ∧
     isSameUniversity
        ⟨("University of California (UC)".data),
          ("United States of America".data), []⟩
        ⟨("University of California".data),
          ("United States of America".data), []⟩ = true) := by
  refine ⟨?_, ?_, by decide, by decide, by decide⟩
  · intro name h1 h2 h3 h4 hmem
    simp only [buildNameKeys, if_neg h1, List.mem_append] at hmem
    rcases hmem with (hA | hB) | hC
    · by_cases hn : normalizeName name = []
      · simp [hn] at hA
      · simp only [if_neg hn, List.mem_singleton] at hA
        exact h3 hA
    · by_cases hn : normalizeName (extractBaseAlias name).1 = []
      · simp [hn] at hB
      · simp only [if_neg hn, List.mem_singleton] at hB
        exact h4 hB
    · by_cases han : normalizeName (extractBaseAlias name).2 = []
      · simp [han] at hC
      · rw [if_neg han, List.mem_append] at hC
        rcases hC with hC1 | hC2
        · have hcond : ¬(2 < (normalizeName (extractBaseAlias name).2).length ∧
              normalizeName (extractBaseAlias name).2 ∉ disallowedShort) := by
            intro hcc
            omega
          simp [hcond] at hC1
        · cases hlk : abbrevTable.lookup (normalizeName (extractBaseAlias name).2) with
          | none => rw [hlk] at hC2; simp at hC2
          | some e =>
            rw [hlk] at hC2
            simp only [List.mem_singleton] at hC2
            have hlong := abbrev_vals_long e (lookup_val_mem hlk)
            rw [← hC2] at hlong
            omega
  · intro name e h1 hlk
    by_cases han : normalizeName (extractBaseAlias name).2 = []
    · rw [han] at hlk
      have : abbrevTable.lookup ([] : List Char) = none := by decide
      rw [this] at hlk
      exact absurd hlk (by simp)
    · simp only [buildNameKeys, if_neg h1, if_neg han, List.mem_append, hlk]
      right
      right
      simp

theorem modifyAt_length {α : Type} (l : List α) (i : Nat) (f : α → α) :
    (modifyAt l i f).length = l.length := by
  induction l generalizing i with
  | nil => rfl
  | cons a t ih =>
    cases i with
    | zero => rfl
    | succ n => simp [modifyAt, ih]

theorem modifyAt_get_ne {α : Type} (l : List α) (i j : Nat) (f : α → α)
    (h : j ≠ i) : (modifyAt l i f).get? j = l.get? j := by
  induction l generalizing i j with
  | nil => rfl
  | cons a t ih =>
    cases i with
    | zero =>
      cases j with
      | zero => exact absurd rfl h
      | succ m => rfl
    | succ n =>
      cases j with
      | zero => rfl
      | succ m =>
        simp only [modifyAt, List.get?_cons_succ]
        exact ih n m (fun he => h (by rw [he]))

theorem modifyAt_get_eq {α : Type} (l : List α) (i : Nat) (f : α → α) {r : α}
    (h : l.get? i = some r) : (modifyAt l i f).get? i = some (f r) := by
  induction l generalizing i with
  | nil => simp at h
  | cons a t ih =>
    cases i with
    | zero =>
      simp only [List.get?_cons_zero, Option.some.injEq] at h
      subst h
      rfl
    | succ n =>
      simp only [List.get?_cons_succ] at h
      simp only [modifyAt, List.get?_cons_succ]
      exact ih n h

theorem lookupLast_mem_iff (l : List MRow) (k : List Char × List Char) :
    (∃ r ∈ l, mKey r = k) ↔ ∃ i, lookupLast l k = some i := by
  induction l with
  | nil => simp [lookupLast]
  | cons r t ih =>
    cases h : lookupLast t k with
    | some j =>
      simp only [lookupLast, h]
      constructor
      · intro _; exact ⟨j + 1, rfl⟩
      · intro _
        obtain ⟨r', hr', hk⟩ := ih.mpr ⟨j, h⟩
        exact ⟨r', List.mem_cons_of_mem r hr', hk⟩
    | none =>
      simp only [lookupLast, h]
      by_cases hk : mKey r = k
      · simp only [if_pos hk]
        constructor
        · intro _; exact ⟨0, rfl⟩
        · intro _; exact ⟨r, List.mem_cons_self r t, hk⟩
      · simp only [if_neg hk]
        constructor
        · rintro ⟨r', hr', hk'⟩
          rcases List.mem_cons.mp hr' with he | hmem2
          · exact absurd (he ▸ hk') hk
          · obtain ⟨j, hj⟩ := ih.mp ⟨r', hmem2, hk'⟩
            rw [hj] at h
            exact absurd h (by simp)
        · rintro ⟨i, hi⟩
          exact absurd hi (by simp)

theorem lookupLast_none {l : List MRow} {k : List Char × List Char}
    (h : ¬∃ r ∈ l, mKey r = k) : lookupLast l k = none := by
  cases h2 : lookupLast l k with
  | none => rfl
  | some j => exact absurd ((lookupLast_mem_iff l k).mpr ⟨j, h2⟩) h

/-- Two distinct THE rows carrying the identical lookup key. -/
def theRowA : SourceRow :=
  ⟨("Aalto University".data), ("Finland".data),
    ("aalto university".data), ("101".data)⟩

/-- A second THE row with theRowA's key but another rank. -/
def theRowB : SourceRow :=
  ⟨("Aalto  University".data), ("Finland".data),
    ("aalto university".data), ("102".data)⟩

/-- C2 counterexample: two THE rows with the identical
(country, normalized name) tuple are both appended as separate rows — the
lookup map is built before each pass and never updated during it, so records
of one source table are never merged with each other. -/
theorem merge_exact_same_source_cex :
    sKey theRowA = sKey theRowB ∧ theRowA ≠ theRowB ∧
    (mergeDatasets [] [theRowA, theRowB] []).length = 2 := by decide

/-- C2 (amended): a row of a later source merges into the accumulated list
exactly when some pre-pass row carries the identical
(country, normalized name) tuple; on a miss — in particular whenever the
countries differ — the row is appended as a new record, and two rows of the
same source pass never merge with each other. -/
theorem merge_exact_key_amended :
    (∀ (base : List MRow) (t : SourceRow),
      ((∃ r ∈ base, mKey r = sKey t) →
        (mergeSourceTHE base [t]).length = base.length) ∧
      ((¬∃ r ∈ base, mKey r = sKey t) →
        mergeSourceTHE base [t] = base ++ [theNewRow t])) ∧
    (∀ (base : List MRow) (t1 t2 : SourceRow),
      sKey t1 = sKey t2 → (¬∃ r ∈ base, mKey r = sKey t1) →
      (mergeSourceTHE base [t1, t2]).length = base.length + 2) ∧
    (∀ (base : List MRow) (t : SourceRow),
      (∀ r ∈ base, r.country ≠ t.country) →
      mergeSourceTHE base [t] = base ++ [theNewRow t]) := by
  have hone : ∀ (base : List MRow) (t : SourceRow),
      mergeSourceTHE base [t] =
        (match lookupLast base (sKey t) with
          | some i => modifyAt base i (fun r => { r with the_rank := some t.rank })
          | none => base ++ [theNewRow t]) := by
    intro base t
    rfl
  refine ⟨?_, ?_, ?_⟩
  · intro base t
    constructor
    · intro hex
      obtain ⟨i, hi⟩ := (lookupLast_mem_iff base (sKey t)).mp hex
      rw [hone, hi]
      exact modifyAt_length base i _
    · intro hnex
      rw [hone, lookupLast_none hnex]
  · intro base t1 t2 h12 hnex
    have e1 : lookupLast base (sKey t1) = none := lookupLast_none hnex
    have e2 : lookupLast base (sKey t2) = none := by rw [← h12]; exact e1
    show (List.foldl _ base [t1, t2]).length = base.length + 2
    simp only [List.foldl_cons, List.foldl_nil, e1, e2]
    simp [List.length_append]
  · intro base t hct
    apply (hone base t).trans
    rw [lookupLast_none]
    rintro ⟨r, hr, hk⟩
    have : r.country = t.country := congrArg Prod.fst hk
    exact hct r hr this

theorem get_append_singleton {α : Type} (l : List α) (x : α) :
    (l ++ [x]).get? l.length = some x := by
  induction l with
  | nil => rfl
  | cons a t ih => simp [ih]

/-- C4: on a hit, only the matched row's the_rank field changes (the struct
update names every other field as unchanged) and every other row is
untouched; on a miss a fresh row is appended whose only populated rank is
the_rank; consequently an institution present only in the THE table appears
in the output with qs_rank null and the_rank its THE value. -/
theorem merge_rank_frame_effect :
    (∀ (base : List MRow) (t : SourceRow) (i : Nat),
      lookupLast base (sKey t) = some i →
        (∀ j, j ≠ i → (mergeSourceTHE base [t]).get? j = base.get? j) ∧
        (∀ r, base.get? i = some r →
          (mergeSourceTHE base [t]).get? i =
            some { r with the_rank := some t.rank })) ∧
    (∀ (base : List MRow) (t : SourceRow),
      lookupLast base (sKey t) = none →
        mergeSourceTHE base [t] = base ++ [theNewRow t]) ∧
    (∀ t : SourceRow,
      (theNewRow t).qs_rank = none ∧ (theNewRow t).the_rank = some t.rank ∧
      (theNewRow t).usnews_rank = none ∧ (theNewRow t).status = none ∧
      (theNewRow t).latitude = none ∧ (theNewRow t).longitude = none) ∧
    (∀ (acc : List MRow) (u : SourceRow) (i : Nat),
      lookupLast acc (sKey u) = some i →
        (∀ j, j ≠ i → (mergeSourceUS acc [u]).get? j = acc.get? j) ∧
        (∀ r, acc.get? i = some r →
          (mergeSourceUS acc [u]).get? i =
            some { r with usnews_rank := some u.rank })) ∧
    (∀ (acc : List MRow) (u : SourceRow),
      lookupLast acc (sKey u) = none →
        mergeSourceUS acc [u] = acc ++ [usNewRow u]) ∧
    (∀ (qs : List MRow) (t : SourceRow),
      lookupLast qs (sKey t) = none →
        mergeDatasets qs [t] [] = qs ++ [theNewRow t] ∧
        (mergeDatasets qs [t] []).get? qs.length = some (theNewRow t)) := by
  have hone : ∀ (base : List MRow) (t : SourceRow),
      mergeSourceTHE base [t] =
        (match lookupLast base (sKey t) with
          | some i => modifyAt base i (fun r => { r with the_rank := some t.rank })
          | none => base ++ [theNewRow t]) := by
    intro base t
    rfl
  have honeUS : ∀ (acc : List MRow) (u : SourceRow),
      mergeSourceUS acc [u] =
        (match lookupLast acc (sKey u) with
          | some i => modifyAt acc i (fun r => { r with usnews_rank := some u.rank })
          | none => acc ++ [usNewRow u]) := by
    intro acc u
    rfl
  refine ⟨?_, ?_, fun t => ⟨rfl, rfl, rfl, rfl, rfl, rfl⟩, ?_, ?_, ?_⟩
  · intro base t i hi
    rw [hone, hi]
    constructor
    · intro j hj
      exact modifyAt_get_ne base i j _ hj
    · intro r hr
      exact modifyAt_get_eq base i _ hr
  · intro base t hnone
    rw [hone, hnone]
  · intro acc u i hi
    rw [honeUS, hi]
    constructor
    · intro j hj
      exact modifyAt_get_ne acc i j _ hj
    · intro r hr
      exact modifyAt_get_eq acc i _ hr
  · intro acc u hnone
    rw [honeUS, hnone]
  · intro qs t hnone
    have hthe : mergeSourceTHE qs [t] = qs ++ [theNewRow t] := by
      rw [hone, hnone]
    have hds : mergeDatasets qs [t] [] = qs ++ [theNewRow t] := by
      show mergeSourceUS (mergeSourceTHE qs [t]) [] = _
      rw [show ∀ m : List MRow, mergeSourceUS m [] = m from fun _ => rfl, hthe]
    refine ⟨hds, ?_⟩
    rw [hds]
    exact get_append_singleton qs (theNewRow t)

/-- Witness for the C4 frame theorem at a concrete one-row base hit by a
matching THE row, and at a miss. -/
theorem merge_rank_frame_effect_witness :
    (mergeDatasets [] [theRowA] []).get? 0 = some (theNewRow theRowA) :=
  ((merge_rank_frame_effect.2.2.2.2.2 [] theRowA rfl).2)

theorem mem_dedupGo (rows : List Row) :
    ∀ (idxs used : List Nat) (g : List Nat),
      g ∈ dedupGo rows idxs used → ∃ i u, g = groupOf rows u i := by
  intro idxs
  induction idxs with
  | nil => intro used g h; simp [dedupGo] at h
  | cons i rest ih =>
    intro used g h
    simp only [dedupGo] at h
    by_cases hu : used.contains i = true
    · rw [if_pos hu] at h
      exact ih used g h
    · rw [if_neg hu] at h
      rcases List.mem_cons.mp h with he | hm
      · exact ⟨i, used, he⟩
      · exact ih _ g hm

theorem groupOf_members (rows : List Row) (used : List Nat) (i : Nat) :
    ∃ rest, groupOf rows used i = i :: rest ∧
      ∀ j ∈ rest,
        isSameUniversity (rows.getD i rowDefault) (rows.getD j rowDefault)
          = true := by
  refine ⟨_, rfl, ?_⟩
  intro j hj
  have hp := (List.mem_filter.mp hj).2
  simp only [Bool.and_eq_true] at hp
  exact hp.2

/-- Record A of the non-transitivity example: plain MIT. -/
def mitPlain : Row :=
  ⟨("Massachusetts Institute of Technology".data), ("United States".data), []⟩

/-- Record B: MIT with a bracketed second name, sharing a key with A via its
base and a key with C via its alias. -/
def mitTech : Row :=
  ⟨("Massachusetts Institute of Technology (Tech Institute)".data),
    ("United States".data), []⟩

/-- Record C: only the alias of B, sharing no key with A. -/
def techShort : Row :=
  ⟨("Tech Institute".data), ("United States".data), []⟩

/-- C5: every group the one-pass scan of deduplicate_fuzzy emits consists of
a seed index followed by indices whose records DIRECTLY match the seed; and
on the concrete chain A-B-C (B matches both A and C, C does not match A),
C is left out of A's group — grouping is not a transitive closure. -/
theorem dedup_grouping_one_pass :
    (∀ (rows : List Row) (g : List Nat), g ∈ dedupGroups rows →
      ∃ i rest, g = i :: rest ∧
        ∀ j ∈ rest,
          isSameUniversity (rows.getD i rowDefault) (rows.getD j rowDefault)
            = true) ∧
    (∀ (rows : List Row) (used : List Nat) (i j : Nat),
      j ∈ groupOf rows used i ↔
        (j = i ∨ (i < j ∧ j < rows.length ∧ j ∉ used ∧
          isSameUniversity (rows.getD i rowDefault) (rows.getD j rowDefault)
            = true))) ∧
    (dedupGroups [mitPlain, mitTech, techShort] = [[0, 1], [2]] ∧
     isSameUniversity mitTech techShort = true ∧
     isSameUniversity mitPlain techShort = false) := by
  refine ⟨?_, ?_, by decide, by decide, by decide⟩
  · intro rows g hg
    obtain ⟨i, u, hgu⟩ := mem_dedupGo rows _ _ g hg
    obtain ⟨rest, hrest, hmatch⟩ := groupOf_members rows u i
    exact ⟨i, rest, hgu.trans hrest, hmatch⟩
  · intro rows used i j
    have hcont : ∀ (u : List Nat) (n : Nat), (!u.contains n) = true ↔ n ∉ u := by
      intro u n
      rw [Bool.not_eq_true']
      constructor
      · intro h hm
        have h2 : u.contains n = true := List.elem_iff.mpr hm
        rw [h2] at h
        exact absurd h (by simp)
      · intro h
        cases hc : u.contains n
        · rfl
        · exact absurd (List.elem_iff.mp hc) h
    simp only [groupOf, List.mem_cons, List.mem_filter, List.mem_range,
      Bool.and_eq_true, decide_eq_true_eq]
    constructor
    · rintro (he | ⟨hr, ⟨hij, hnu⟩, hm⟩)
      · exact Or.inl he
      · exact Or.inr ⟨hij, hr, (hcont used j).mp hnu, hm⟩
    · rintro (he | ⟨hij, hr, hnu, hm⟩)
      · exact Or.inl he
      · exact Or.inr ⟨hr, ⟨hij, (hcont used j).mpr hnu⟩, hm⟩

theorem find_first {α : Type} (p : α → Bool) :
    ∀ (l : List α) (a : α), l.find? p = some a →
      p a = true ∧ ∃ i, l.get? i = some a ∧
        ∀ j x, j < i → l.get? j = some x → p x = false := by
  intro l
  induction l with
  | nil => intro a h; simp at h
  | cons b t ih =>
    intro a h
    by_cases hb : p b = true
    · rw [List.find?_cons_of_pos _ hb] at h
      simp only [Option.some.injEq] at h
      subst h
      exact ⟨hb, 0, rfl, fun j x hj _ => absurd hj (by omega)⟩
    · have hb2 : p b = false := by simpa using hb
      rw [List.find?_cons_of_neg _ hb] at h
      obtain ⟨hpa, i, hi, hfirst⟩ := ih a h
      refine ⟨hpa, i + 1, by simpa using hi, ?_⟩
      intro j x hj hx
      cases j with
      | zero =>
        simp only [List.get?_cons_zero, Option.some.injEq] at hx
        subst hx
        exact hb2
      | succ m => exact hfirst m x (by omega) (by simpa using hx)

/-- First input row of the order-dependence example. -/
def uniRowA : InRow :=
  ⟨("abcdefg".data), ("abcdefg".data), ("Unknown".data), ("src1".data)⟩

/-- Second input row: within ratio 90 of both uniRowA and uniRowC. -/
def uniRowB : InRow :=
  ⟨("abcdef".data), ("abcdef".data), ("Unknown".data), ("src2".data)⟩

/-- Third input row: within ratio 90 of uniRowB only. -/
def uniRowC : InRow :=
  ⟨("abcde".data), ("abcde".data), ("Unknown".data), ("src3".data)⟩

/-- C9: one loop iteration merges the row into the FIRST accepted canonical
name (in acceptance order) whose similarity ratio reaches 90, leaving the
seen list unchanged, and otherwise appends the row as a new canonical name;
on a concrete permutation pair the accepted-record counts differ, so the
clustering is order-dependent. -/
theorem uni_dedup_greedy_first_match :
    (∀ (recs : List URec) (seen : List (List Char)) (row : InRow),
      ((seen.find? (fun ex => ratioGe90 row.name_normalized ex) = none →
        uniStep (recs, seen) row =
          (recs ++ [⟨row.name, row.name_normalized, row.country, [row.source]⟩],
            seen ++ [row.name_normalized])) ∧
      (∀ mn, seen.find? (fun ex => ratioGe90 row.name_normalized ex) = some mn →
        uniStep (recs, seen) row = (updateFirst row mn recs, seen) ∧
        ratioGe90 row.name_normalized mn = true ∧
        ∃ i, seen.get? i = some mn ∧
          ∀ j x, j < i → seen.get? j = some x →
            ratioGe90 row.name_normalized x = false))) ∧
    ((uniDedup [uniRowB, uniRowA, uniRowC]).length = 1 ∧
      (uniDedup [uniRowA, uniRowC, uniRowB]).length = 2 ∧
      List.Perm [uniRowA, uniRowC, uniRowB] [uniRowB, uniRowA, uniRowC]) := by
  constructor
  · intro recs seen row
    constructor
    · intro hnone
      simp [uniStep, hnone]
    · intro mn hmn
      obtain ⟨hp, i, hi, hfirst⟩ :=
        find_first (fun ex => ratioGe90 row.name_normalized ex) seen mn hmn
      exact ⟨by simp [uniStep, hmn], hp, i, hi, hfirst⟩
  · refine ⟨by decide, by decide, by decide⟩

theorem sortScored_head : ∀ (l : List Row), (sortScored l).head? = amaxScore l := by
  intro l
  induction l with
  | nil => rfl
  | cons x xs ih =>
    simp only [sortScored, amaxScore]
    cases hs : sortScored xs with
    | nil =>
      have hn : amaxScore xs = none := by rw [← ih, hs]; rfl
      rw [hn]
      simp [insertScored]
    | cons m t =>
      have hm : amaxScore xs = some m := by rw [← ih, hs]; rfl
      rw [hm]
      simp only [insertScored]
      by_cases hle : score m ≤ score x
      · rw [if_pos hle, if_neg (by omega : ¬score x < score m)]
        rfl
      · rw [if_neg hle, if_pos (by omega : score x < score m)]
        rfl

theorem amaxScore_eq_none : ∀ (l : List Row), amaxScore l = none ↔ l = [] := by
  intro l
  cases l with
  | nil => simp [amaxScore]
  | cons b s =>
    simp only [amaxScore]
    cases hs : amaxScore s <;> simp

theorem amaxScore_spec : ∀ (l : List Row) (m : Row), amaxScore l = some m →
    (∃ i, l.get? i = some m ∧
      (∀ j x, j < i → l.get? j = some x → score x < score m)) ∧
    (∀ x ∈ l, score x ≤ score m) := by
  intro l
  induction l with
  | nil => intro m h; simp [amaxScore] at h
  | cons a t ih =>
    intro m h
    simp only [amaxScore] at h
    cases ht : amaxScore t with
    | none =>
      rw [ht] at h
      simp only [Option.some.injEq] at h
      subst h
      have htnil : t = [] := (amaxScore_eq_none t).mp ht
      subst htnil
      refine ⟨⟨0, rfl, fun j x hj _ => absurd hj (by omega)⟩, ?_⟩
      intro x hx
      rcases List.mem_cons.mp hx with he | hm2
      · subst he; exact Nat.le_refl _
      · simp at hm2
    | some m' =>
      rw [ht] at h
      simp only [Option.some.injEq] at h
      obtain ⟨⟨i', hi', hfirst'⟩, hbound'⟩ := ih m' ht
      by_cases hlt : score a < score m'
      · rw [if_pos hlt] at h
        subst h
        refine ⟨⟨i' + 1, by simpa using hi', ?_⟩, ?_⟩
        · intro j x hj hx
          cases j with
          | zero =>
            simp only [List.get?_cons_zero, Option.some.injEq] at hx
            subst hx
            exact hlt
          | succ k => exact hfirst' k x (by omega) (by simpa using hx)
        · intro x hx
          rcases List.mem_cons.mp hx with he | hm2
          · subst he; omega
          · exact hbound' x hm2
      · rw [if_neg hlt] at h
        subst h
        refine ⟨⟨0, rfl, fun j x hj _ => absurd hj (by omega)⟩, ?_⟩
        intro x hx
        rcases List.mem_cons.mp hx with he | hm2
        · subst he; exact Nat.le_refl _
        · have := hbound' x hm2
          omega

theorem fillFrom_get :
    ∀ (os : List (Option (List Char))) (sibs : List Row) (k j : Nat),
      (fillFrom sibs k os).get? j
        = (os.get? j).map (fun o => fillOne sibs (k + j) o) := by
  intro os
  induction os with
  | nil => intro sibs k j; simp [fillFrom]
  | cons o os' ih =>
    intro sibs k j
    cases j with
    | zero => simp [fillFrom]
    | succ m =>
      simp only [fillFrom, List.get?_cons_succ]
      rw [ih sibs (k + 1) m]
      have harith : k + 1 + m = k + (m + 1) := by omega
      rw [harith]

/-- C3: for every non-empty group, the representative kept by the final
dedup pass is the record of maximum non-null-field count with ties broken in
favour of the earliest-seen record (the head of the stable descending sort);
its Name and Country are kept verbatim; a field that is already non-null and
non-empty is never overwritten; and a null/empty field receives the value of
the first sibling, scanned in decreasing completeness order, that has a
non-empty value for that column. -/
theorem dedup_representative_fill (r0 : Row) (rs : List Row) :
    ∃ m sibs,
      amaxScore (r0 :: rs) = some m ∧
      sortScored (r0 :: rs) = m :: sibs ∧
      (∃ i, (r0 :: rs).get? i = some m ∧
        ∀ j x, j < i → (r0 :: rs).get? j = some x → score x < score m) ∧
      (∀ x ∈ r0 :: rs, score x ≤ score m) ∧
      (mergeGroup (r0 :: rs)).Name = m.Name ∧
      (mergeGroup (r0 :: rs)).Country = m.Country ∧
      (∀ k o, m.fields.get? k = some o → needsFill o = false →
        (mergeGroup (r0 :: rs)).fields.get? k = some o) ∧
      (∀ k o, m.fields.get? k = some o → needsFill o = true →
        (mergeGroup (r0 :: rs)).fields.get? k =
          some (match sibs.find? (fun s => donates (s.fields.getD k none)) with
            | some s => s.fields.getD k none
            | none => o)) := by
  obtain ⟨m, hm⟩ : ∃ m, amaxScore (r0 :: rs) = some m := by
    cases h : amaxScore (r0 :: rs) with
    | none => exact absurd ((amaxScore_eq_none _).mp h) (by simp)
    | some m => exact ⟨m, rfl⟩
  have hh : (sortScored (r0 :: rs)).head? = some m := by
    rw [sortScored_head]; exact hm
  obtain ⟨sibs, hsort⟩ : ∃ sibs, sortScored (r0 :: rs) = m :: sibs := by
    cases hs : sortScored (r0 :: rs) with
    | nil => rw [hs] at hh; simp at hh
    | cons m' t =>
      rw [hs] at hh
      simp only [List.head?_cons, Option.some.injEq] at hh
      exact ⟨t, by rw [hh]⟩
  obtain ⟨⟨i, hi, hfirst⟩, hbound⟩ := amaxScore_spec _ m hm
  have hmg : mergeGroup (r0 :: rs) = { m with fields := fillFrom sibs 0 m.fields } := by
    unfold mergeGroup
    rw [hsort]
  refine ⟨m, sibs, hm, hsort, ⟨i, hi, hfirst⟩, hbound, ?_, ?_, ?_, ?_⟩
  · rw [hmg]
  · rw [hmg]
  · intro k o hk hnf
    rw [hmg]
    show (fillFrom sibs 0 m.fields).get? k = some o
    rw [fillFrom_get, hk]
    simp [fillOne, hnf]
  · intro k o hk hnf
    rw [hmg]
    show (fillFrom sibs 0 m.fields).get? k = _
    rw [fillFrom_get, hk]
    simp only [Option.map_some', Nat.zero_add]
    rw [show fillOne sibs k o =
        (match sibs.find? (fun s => donates (s.fields.getD k none)) with
          | some s => s.fields.getD k none
          | none => o) from by simp [fillOne, hnf]]

end Uniscraper
